import Mathlib

/-!
Verification of the unified search module (accent-insensitive exact-match
search and highlighting) of the catecismobautista site.

JS strings are modelled as `List Char` (a string is its sequence of
code points; all characters relevant here lie in the Basic Multilingual
Plane, so code points and UTF-16 units coincide).  The ECMAScript /
Unicode library functions the module delegates to (`toLowerCase`,
`normalize('NFD')`, the regex engine, the DOM text-node serialization
behind `div.innerHTML`) are modelled explicitly on the fragment of
Unicode the module works with (Latin letters and their common accented
variants).
-/

namespace UnifiedSearch

/-- Model of `String.prototype.toLowerCase` on the relevant Unicode
fragment: ASCII letters plus the accented Latin capitals that occur in
the catechism data.  Characters outside the table are unchanged. -/
def lowerTable : List (Char × Char) :=
  ((List.range 26).map (fun i => (Char.ofNat (65 + i), Char.ofNat (97 + i)))) ++
  [('Á', 'á'), ('À', 'à'), ('Ä', 'ä'), ('Â', 'â'), ('Ã', 'ã'),
   ('É', 'é'), ('È', 'è'), ('Ë', 'ë'), ('Ê', 'ê'),
   ('Í', 'í'), ('Ì', 'ì'), ('Ï', 'ï'), ('Î', 'î'),
   ('Ó', 'ó'), ('Ò', 'ò'), ('Ö', 'ö'), ('Ô', 'ô'), ('Õ', 'õ'),
   ('Ú', 'ú'), ('Ù', 'ù'), ('Ü', 'ü'), ('Û', 'û'),
   ('Ñ', 'ñ'), ('Ç', 'ç'), ('Ō', 'ō'), ('Š', 'š')]

def lowerChar (c : Char) : Char :=
  match lowerTable.find? (fun p => p.1 == c) with
  | some p => p.2
  | none => c

/-- Model of Unicode canonical decomposition (NFD) on the relevant
fragment: each precomposed accented letter decomposes into its base
letter followed by the combining mark.  Characters outside the table
do not decompose. -/
def nfdTable : List (Char × List Char) :=
  [('á', ['a', Char.ofNat 0x301]), ('à', ['a', Char.ofNat 0x300]),
   ('ä', ['a', Char.ofNat 0x308]), ('â', ['a', Char.ofNat 0x302]),
   ('ã', ['a', Char.ofNat 0x303]),
   ('é', ['e', Char.ofNat 0x301]), ('è', ['e', Char.ofNat 0x300]),
   ('ë', ['e', Char.ofNat 0x308]), ('ê', ['e', Char.ofNat 0x302]),
   ('í', ['i', Char.ofNat 0x301]), ('ì', ['i', Char.ofNat 0x300]),
   ('ï', ['i', Char.ofNat 0x308]), ('î', ['i', Char.ofNat 0x302]),
   ('ó', ['o', Char.ofNat 0x301]), ('ò', ['o', Char.ofNat 0x300]),
   ('ö', ['o', Char.ofNat 0x308]), ('ô', ['o', Char.ofNat 0x302]),
   ('õ', ['o', Char.ofNat 0x303]),
   ('ú', ['u', Char.ofNat 0x301]), ('ù', ['u', Char.ofNat 0x300]),
   ('ü', ['u', Char.ofNat 0x308]), ('û', ['u', Char.ofNat 0x302]),
   ('ñ', ['n', Char.ofNat 0x303]), ('ç', ['c', Char.ofNat 0x327]),
   ('ō', ['o', Char.ofNat 0x304]), ('š', ['s', Char.ofNat 0x30C])]

def nfdChar (c : Char) : List Char :=
  match nfdTable.find? (fun p => p.1 == c) with
  | some p => p.2
  | none => [c]

/-- The combining diacritical marks range removed by
`.replace(/[̀-ͯ]/g, '')`. -/
def combining (c : Char) : Bool :=
  0x300 ≤ c.toNat && c.toNat ≤ 0x36F

/-- Source `normalizeText` (part_000 lines 24-30): falsy input gives
the empty string, otherwise lowercase, decompose (NFD), and strip the
combining marks U+0300-U+036F. -/
def normalizeText (t : List Char) : List Char :=
  if t.isEmpty then []
  else ((t.map lowerChar).flatMap nfdChar).filter (fun c => !combining c)

/-- Source `ACCENT_MAP` (part_000 lines 9-17): each base letter with
the exact character class the module uses for it. -/
def ACCENT_MAP : List (Char × List Char) :=
  [('a', ['a', 'á', 'à', 'ä', 'â']),
   ('e', ['e', 'é', 'è', 'ë', 'ê']),
   ('i', ['i', 'í', 'ì', 'ï', 'î']),
   ('o', ['o', 'ó', 'ò', 'ö', 'ô']),
   ('u', ['u', 'ú', 'ù', 'ü', 'û']),
   ('n', ['n', 'ñ']),
   ('c', ['c', 'ç'])]

/-- The set of characters a single pattern atom matches (before the
case-insensitive flag): a mapped letter becomes its character class,
any other character is emitted literally (regex-escaping only makes
special characters literal, so the atom is the singleton class). -/
def classOf (c : Char) : List Char :=
  match ACCENT_MAP.find? (fun p => p.1 == c) with
  | some p => p.2
  | none => [c]

/-- Source `buildAccentInsensitivePattern` (part_000 lines 37-50): the
compiled regex is a concatenation of single-character atoms, one per
character of the normalized query; we represent it as the list of the
atoms' character classes. -/
def buildAccentInsensitivePattern (q : List Char) : List (List Char) :=
  (normalizeText q).map classOf

/-- One atom of the compiled pattern applied to one text character,
under the regex `i` flag: the character matches if it, or its
lowercase form, is in the class (all class members are lowercase). -/
def classMatches (cls : List Char) (d : Char) : Bool :=
  cls.contains d || cls.contains (lowerChar d)

/-- The compiled pattern matches starting exactly at the head of `t`. -/
def matchesAt : List (List Char) → List Char → Bool
  | [], _ => true
  | _ :: _, [] => false
  | cls :: ps, d :: ds => classMatches cls d && matchesAt ps ds

/-- The compiled pattern matches somewhere in `t` (what `.test` /
a global `.replace` finding at least one occurrence would report). -/
def patternSearch (pat : List (List Char)) : List Char → Bool
  | [] => matchesAt pat []
  | t@(_ :: ds) => matchesAt pat t || patternSearch pat ds

/-- Test whether `needle` occurs at the start of `hay`. -/
def listStartsWith : List Char → List Char → Bool
  | _, [] => true
  | [], _ :: _ => false
  | a :: as, b :: bs => a == b && listStartsWith as bs

/-- Model of `hay.indexOf(needle) !== -1`: contiguous substring
containment. -/
def containsSub (needle : List Char) : List Char → Bool
  | [] => listStartsWith [] needle
  | hay@(_ :: rest) => listStartsWith hay needle || containsSub needle rest

/-- Source `textContains` (part_000 lines 58-63): falsy text or query
gives false, otherwise normalized-substring containment. -/
def textContains (t q : List Char) : Bool :=
  if t.isEmpty || q.isEmpty then false
  else containsSub (normalizeText q) (normalizeText t)

/-- One character of the HTML text-node serialization used by
`div.textContent = text; div.innerHTML`: the serialization
entity-encodes ampersand, no-break space, less-than and greater-than,
and leaves every other character (including quotes) unchanged. -/
def escapeChar (c : Char) : List Char :=
  if c = '&' then ['&', 'a', 'm', 'p', ';']
  else if c = '<' then ['&', 'l', 't', ';']
  else if c = '>' then ['&', 'g', 't', ';']
  else if c = Char.ofNat 0xA0 then ['&', 'n', 'b', 's', 'p', ';']
  else [c]

/-- Source `escapeHtml` (part_000 lines 70-75): falsy input gives the
empty string; otherwise the DOM text-node serialization of the text. -/
def escapeHtml (t : List Char) : List Char :=
  if t.isEmpty then [] else t.flatMap escapeChar

/-- The opening highlight marker inserted by the replacement string
of `highlightText`. -/
def markPre : List Char := "<mark class=\"search-highlight\">".toList

/-- The closing highlight marker. -/
def markPost : List Char := "</mark>".toList

/-- The scan of a global replace, structurally recursive on a fuel
bound (each step consumes at least one character of the text, so any
fuel of at least the text's length gives the full scan; the
fuel-exhausted branch is unreachable from `replaceAll`). -/
def replaceAllAux (pat : List (List Char)) : Nat → List Char → List Char
  | _, [] => if matchesAt pat [] then markPre ++ markPost else []
  | 0, t => t
  | fuel + 1, c :: cs =>
    if matchesAt pat (c :: cs) then
      if pat.isEmpty then markPre ++ markPost ++ c :: replaceAllAux pat fuel cs
      else markPre ++ (c :: cs).take pat.length ++ markPost ++
           replaceAllAux pat fuel ((c :: cs).drop pat.length)
    else c :: replaceAllAux pat fuel cs

/-- Model of `text.replace(pattern, '<mark class="search-highlight">$&</mark>')`
with the `g` flag: scan left to right; at each position, if the
pattern matches there, wrap the matched span (whose length is the
pattern length, since every atom consumes exactly one character) and
continue after it; an empty pattern matches the empty string at every
position, including the end. -/
def replaceAll (pat : List (List Char)) (t : List Char) : List Char :=
  replaceAllAux pat t.length t

/-- Source `highlightText` (part_000 lines 83-90): falsy text or query
gives the escaped text; otherwise escape first, then replace every
pattern match in the escaped text with the marker-wrapped match. -/
def highlightText (text query : List Char) : List Char :=
  if text.isEmpty || query.isEmpty then escapeHtml text
  else replaceAll (buildAccentInsensitivePattern query) (escapeHtml text)

/-- A record of the search index; the search module reads exactly the
four text fields below (other attributes of an index entry — type,
number, url — are never consulted by `search`).  A field absent on the
JS object is `none`. -/
structure Record where
  question : Option (List Char)
  answer : Option (List Char)
  verse : Option (List Char)
  reference : Option (List Char)
deriving DecidableEq

/-- A search result: the record together with the field values that
matched, in field-check order. -/
structure MatchResult where
  item : Record
  matchedFields : List (Option (List Char))
deriving DecidableEq

/-- Apply `textContains(field, query)` where the field may be absent: an
absent field is falsy, hence non-matching. -/
def textContainsOpt (f : Option (List Char)) (q : List Char) : Bool :=
  match f with
  | none => false
  | some s => textContains s q

/-- JS whitespace characters removed by `String.prototype.trim`
(the ones relevant to this data). -/
def jsWhitespace (c : Char) : Bool :=
  c == ' ' || c == Char.ofNat 9 || c == Char.ofNat 10 ||
  c == Char.ofNat 13 || c == Char.ofNat 12 || c == Char.ofNat 11 ||
  c == Char.ofNat 0xA0

/-- Model of `query.trim()`. -/
def jsTrim (t : List Char) : List Char :=
  ((t.dropWhile jsWhitespace).reverse.dropWhile jsWhitespace).reverse

/-- The per-record work of the `search` loop body: the matched fields
are the fields (in the fixed order question, answer, verse, reference)
whose text contains the query; the record yields a result exactly when
that list is non-empty. -/
def recordMatch (q : List Char) (r : Record) : Option MatchResult :=
  let mf := [r.question, r.answer, r.verse, r.reference].filter
    (fun f => textContainsOpt f q)
  if mf.isEmpty then none else some ⟨r, mf⟩

/-- The `search` scan loop (part_000 lines 107-132): walk the index,
append each match to the accumulator, and stop as soon as the
accumulator has reached `limit` entries (the length check runs at the
end of every iteration, matching the JS `break`). -/
def searchGo (q : List Char) (limit : Int) : List Record → List MatchResult → List MatchResult
  | [], acc => acc
  | r :: rest, acc =>
    let acc2 := match recordMatch q r with
      | some m => acc ++ [m]
      | none => acc
    if (acc2.length : Int) ≥ limit then acc2 else searchGo q limit rest acc2

/-- The JS default `limit = limit || 50`: an absent limit — and also a supplied
limit of 0, which is falsy — falls back to 50. -/
def effLimit (limit : Option Int) : Int :=
  match limit with
  | none => 50
  | some l => if l = 0 then 50 else l

/-- Source `search` (part_000 lines 99-135).  A falsy or too-short
(trimmed length < 2) query returns the empty list before the index is
touched; otherwise the index is scanned with the trimmed query and
the effective limit. -/
def search (index : List Record) (query : Option (List Char)) (limit : Option Int) :
    List MatchResult :=
  let lim : Int := effLimit limit
  match query with
  | none => []
  | some q =>
    if (jsTrim q).length < 2 then []
    else searchGo (jsTrim q) lim index []

/-- The full (untruncated) match list of an index, in index order. -/
def fullMatches (q : List Char) (index : List Record) : List MatchResult :=
  index.filterMap (recordMatch q)

/-- A JS value, for stating how `normalizeText` behaves on non-string
arguments (numbers are modelled by their integer values; the special
values NaN and fractional numbers are not needed for the claims). -/
inductive JSVal where
  | vUndefined
  | vNull
  | vBool (b : Bool)
  | vNum (n : Int)
  | vStr (s : List Char)
deriving DecidableEq

/-- JS falsiness on `JSVal`. -/
def jsFalsy : JSVal → Bool
  | .vUndefined => true
  | .vNull => true
  | .vBool b => !b
  | .vNum n => n == 0
  | .vStr s => s.isEmpty

/-- Evaluation of `normalizeText` by a JS engine on an
arbitrary argument: a falsy argument returns the empty string via the
`if (!text)` guard; a truthy string is normalized; any other truthy
value reaches `text.toLowerCase()` and throws a TypeError, since
non-string values have no `toLowerCase` method. -/
def normalizeTextJS (v : JSVal) : Except (List Char) (List Char) :=
  if jsFalsy v then .ok []
  else match v with
    | .vStr s => .ok (normalizeText s)
    | _ => .error "TypeError: text.toLowerCase is not a function".toList

/-- The accented variants of `ACCENT_MAP`, each paired with its base
letter (the class members other than the key itself). -/
def variantBase : List (Char × Char) :=
  ACCENT_MAP.flatMap (fun p => (p.2.filter (fun c => !(c == p.1))).map (fun c => (c, p.1)))

/-- A character left untouched by the whole normalization pipeline:
fixed under lowercasing, not decomposable, not a combining mark, and
not one of the accented variants. -/
def plainChar (p : Char) : Bool :=
  lowerChar p == p && nfdChar p == [p] && !combining p &&
  !(variantBase.any (fun pr => pr.1 == p))

/-- A character on which the normalized-substring test and the
compiled pattern are comparable: its lowercase form is either one of
the accent-map variants or a plain non-decomposable, non-combining
character.  Characters outside this set (a decomposable letter not in
the map such as ã, or a decomposed base-plus-mark pair) are exactly
where the two matchers diverge. -/
def goodChar (c : Char) : Bool :=
  variantBase.any (fun pr => pr.1 == lowerChar c) ||
  (nfdChar (lowerChar c) == [lowerChar c] && !combining (lowerChar c))

/-- The single character a good character normalizes to. -/
def charBase (c : Char) : Char :=
  match variantBase.find? (fun pr => pr.1 == lowerChar c) with
  | some pr => pr.2
  | none => lowerChar c

/-- Boolean membership of a record in a list (used to state inclusion
facts about search results without binders). -/
def memB (r : Record) (l : List Record) : Bool :=
  l.any (fun x => decide (x = r))

/-- The one-record index of the specification's worked example. -/
def diosRec : Record :=
  { question := some "¿Qué es Dios?".toList
    answer := some "Dios es Espíritu".toList
    verse := some []
    reference := some [] }

def diosIndex : List Record := [diosRec]

def diosQuery : List Char := "dios".toList

/-- An index of 51 pairwise distinct records, all matching the query
"di" through their question field (they differ in the length of their
non-matching answer field). -/
def c4Recs : List Record :=
  (List.range 51).map (fun i =>
    { question := some ['d', 'i']
      answer := some (List.replicate i 'x')
      verse := none
      reference := none })

/-- The 51st record of `c4Recs`: it matches the query but is beyond
the default limit of 50. -/
def c4rec50 : Record :=
  { question := some ['d', 'i']
    answer := some (List.replicate 50 'x')
    verse := none
    reference := none }

/-- A minimal matching record for witnesses. -/
def wRec : Record :=
  { question := some ['d', 'i'], answer := none, verse := none, reference := none }

/-! ## Basic lemmas about the normalizer -/

theorem normalizeText_pipeline (t : List Char) :
    normalizeText t = ((t.map lowerChar).flatMap nfdChar).filter (fun c => !combining c) := by
  cases t <;> rfl

theorem lowerChar_eq_some {c : Char} {pr : Char × Char}
    (h : lowerTable.find? (fun p => p.1 == c) = some pr) : lowerChar c = pr.2 := by
  unfold lowerChar; rw [h]

theorem lowerChar_eq_none {c : Char}
    (h : lowerTable.find? (fun p => p.1 == c) = none) : lowerChar c = c := by
  unfold lowerChar; rw [h]

theorem nfdChar_eq_some {c : Char} {pr : Char × List Char}
    (h : nfdTable.find? (fun p => p.1 == c) = some pr) : nfdChar c = pr.2 := by
  unfold nfdChar; rw [h]

theorem nfdChar_eq_none {c : Char}
    (h : nfdTable.find? (fun p => p.1 == c) = none) : nfdChar c = [c] := by
  unfold nfdChar; rw [h]

theorem lowerTable_values_fixed : ∀ p ∈ lowerTable, lowerChar p.2 = p.2 := by decide

theorem lowerChar_idem (c : Char) : lowerChar (lowerChar c) = lowerChar c := by
  cases hf : lowerTable.find? (fun p => p.1 == c) with
  | none => rw [lowerChar_eq_none hf]; exact lowerChar_eq_none hf
  | some pr =>
      rw [lowerChar_eq_some hf]
      exact lowerTable_values_fixed pr (List.mem_of_find?_eq_some hf)

theorem plainChar_intro {p : Char} (h1 : lowerChar p = p) (h2 : nfdChar p = [p])
    (h3 : combining p = false)
    (h4 : variantBase.any (fun pr => pr.1 == p) = false) : plainChar p = true := by
  simp [plainChar, h1, h2, h3, h4]

theorem plainChar_elim {p : Char} (h : plainChar p = true) :
    lowerChar p = p ∧ nfdChar p = [p] ∧ combining p = false ∧
    variantBase.any (fun pr => pr.1 == p) = false := by
  simp only [plainChar, Bool.and_eq_true, beq_iff_eq, Bool.not_eq_true'] at h
  exact ⟨h.1.1.1, h.1.1.2, h.1.2, h.2⟩

theorem nfd_values_plain :
    ∀ p ∈ nfdTable, ∀ c ∈ p.2, combining c = true ∨ plainChar c = true := by decide

theorem variants_decompose :
    ∀ p ∈ variantBase, (nfdTable.find? (fun q => q.1 == p.1)).isSome = true := by decide

/-- Every character of a normalized string is fixed by the whole
pipeline: lowercase, non-decomposable, not a combining mark, and not
an accented variant. -/
theorem n_chars_plain (t : List Char) : ∀ c ∈ normalizeText t, plainChar c = true := by
  intro c hc
  rw [normalizeText_pipeline, List.mem_filter] at hc
  obtain ⟨hmem, hnc⟩ := hc
  rw [List.mem_flatMap] at hmem
  obtain ⟨x, hx, hcx⟩ := hmem
  rw [List.mem_map] at hx
  obtain ⟨y, _, rfl⟩ := hx
  cases hf : nfdTable.find? (fun p => p.1 == lowerChar y) with
  | some pr =>
      rw [nfdChar_eq_some hf] at hcx
      rcases nfd_values_plain pr (List.mem_of_find?_eq_some hf) c hcx with hcomb | hplain
      · rw [hcomb] at hnc; simp at hnc
      · exact hplain
  | none =>
      rw [nfdChar_eq_none hf] at hcx
      simp only [List.mem_singleton] at hcx
      subst hcx
      refine plainChar_intro (lowerChar_idem y) (nfdChar_eq_none hf) ?_ ?_
      · simpa using hnc
      · by_contra hne
        rw [Bool.not_eq_false, List.any_eq_true] at hne
        obtain ⟨pr, hpr, hpeq⟩ := hne
        have hd := variants_decompose pr hpr
        rw [beq_iff_eq] at hpeq
        rw [hpeq, hf] at hd
        simp at hd

/-- A string all of whose characters are pipeline-fixed normalizes to
itself. -/
theorem normalized_fixed_aux :
    ∀ l : List Char, (∀ c ∈ l, plainChar c = true) → normalizeText l = l := by
  intro l
  induction l with
  | nil => intro _; rfl
  | cons c cs ih =>
      intro h
      have hc := plainChar_elim (h c (by simp))
      have hcs : normalizeText cs = cs := ih (fun d hd => h d (by simp [hd]))
      rw [normalizeText_pipeline] at hcs ⊢
      simp only [List.map_cons, List.flatMap_cons, hc.1, hc.2.1, List.filter_append,
        List.filter_cons, hc.2.2.1]
      simp [hcs]

/-- C9: normalize is idempotent: normalizing an already-normalized
string returns it unchanged, for every string. -/
theorem normalizeText_idempotent (t : List Char) :
    normalizeText (normalizeText t) = normalizeText t :=
  normalized_fixed_aux _ (n_chars_plain t)

/-- C10: normalization strips every combining mark in U+0300-U+036F
after canonical decomposition, so the containment test folds
diacritics outside the fixed accent map — ã, ō, š — to their base
letters, while the compiled pattern does not match those letters: the
containment test's accent equivalence is strictly broader than the
pattern builder's fixed map. -/
theorem normalizeText_strips_all_marks :
    (∀ t : List Char, (normalizeText t).all (fun c => !combining c) = true) ∧
    normalizeText ['ã'] = ['a'] ∧
    normalizeText ['ō'] = ['o'] ∧
    normalizeText ['š'] = ['s'] ∧
    textContains ['ã'] ['a'] = true ∧
    textContains ['ō'] ['o'] = true ∧
    textContains ['š'] ['s'] = true ∧
    patternSearch (buildAccentInsensitivePattern ['a']) ['ã'] = false ∧
    patternSearch (buildAccentInsensitivePattern ['o']) ['ō'] = false ∧
    patternSearch (buildAccentInsensitivePattern ['s']) ['š'] = false := by
  refine ⟨?_, by decide, by decide, by decide, by decide, by decide, by decide,
    by decide, by decide, by decide⟩
  intro t
  rw [normalizeText_pipeline, List.all_eq_true]
  intro c hc
  exact (List.mem_filter.mp hc).2

/-! ## Short or absent queries -/

/-- C5: an absent query, or a query of trimmed length below 2, makes
search return the empty list, for every index and limit. -/
theorem search_short_query_empty (index : List Record) (limit : Option Int) :
    search index none limit = [] ∧
    ∀ s : List Char, (jsTrim s).length < 2 → search index (some s) limit = [] := by
  constructor
  · rfl
  · intro s h
    simp only [search]
    rw [if_pos h]

/-- C5 witness: a one-character query on a non-empty index. -/
theorem search_short_query_witness :
    search [wRec] (some ['s']) none = [] :=
  (search_short_query_empty [wRec] none).2 ['s'] (by decide)

/-! ## normalizeText on arbitrary JS values -/

/-- C6 counterexample: a truthy non-string argument (the number 1)
makes `normalizeText` throw a TypeError instead of returning the
empty string. -/
theorem normalizeTextJS_throws_on_number :
    normalizeTextJS (JSVal.vNum 1) =
      Except.error "TypeError: text.toLowerCase is not a function".toList ∧
    normalizeTextJS (JSVal.vNum 1) ≠ Except.ok [] := by
  refine ⟨rfl, ?_⟩
  intro h
  simp [normalizeTextJS, jsFalsy] at h

/-- C6 amended: normalizeText never throws on string arguments and
returns the empty string on every falsy argument (undefined, null,
false, 0, the empty string); a truthy non-string argument instead
throws. -/
theorem normalizeTextJS_spec :
    (∀ s : List Char, normalizeTextJS (JSVal.vStr s) = Except.ok (normalizeText s)) ∧
    (∀ v : JSVal, jsFalsy v = true → normalizeTextJS v = Except.ok []) := by
  constructor
  · intro s
    cases s with
    | nil => rfl
    | cons c cs => rfl
  · intro v hv
    simp [normalizeTextJS, hv]

/-- C6 witness: the falsy value null yields the empty string. -/
theorem normalizeTextJS_witness :
    normalizeTextJS JSVal.vNull = Except.ok [] :=
  normalizeTextJS_spec.2 JSVal.vNull (by decide)

/-! ## escapeHtml -/

theorem escapeChar_cases (x : Char) :
    escapeChar x = ['&', 'a', 'm', 'p', ';'] ∨ escapeChar x = ['&', 'l', 't', ';'] ∨
    escapeChar x = ['&', 'g', 't', ';'] ∨ escapeChar x = ['&', 'n', 'b', 's', 'p', ';'] ∨
    (escapeChar x = [x] ∧ ¬(x = '<') ∧ ¬(x = '>')) := by
  unfold escapeChar
  split
  · exact Or.inl rfl
  · split
    · exact Or.inr (Or.inl rfl)
    · split
      · exact Or.inr (Or.inr (Or.inl rfl))
      · split
        · exact Or.inr (Or.inr (Or.inr (Or.inl rfl)))
        · rename_i h1 h2 h3 h4
          exact Or.inr (Or.inr (Or.inr (Or.inr ⟨rfl, h2, h3⟩)))

theorem escapeChar_chars (x c : Char) (h : c ∈ escapeChar x) : ¬(c = '<') ∧ ¬(c = '>') := by
  rcases escapeChar_cases x with hx | hx | hx | hx | ⟨hx, hx1, hx2⟩ <;> rw [hx] at h <;>
    first
      | (refine ⟨?_, ?_⟩ <;> rintro rfl <;> exact absurd h (by decide))
      | (simp only [List.mem_singleton] at h; subst h; exact ⟨hx1, hx2⟩)

/-- C7 counterexample: the double quote and the apostrophe are not
entity-encoded; they pass through escapeHtml unchanged. -/
theorem escapeHtml_keeps_quotes :
    escapeHtml ['"', Char.ofNat 39] = ['"', Char.ofNat 39] := by decide

/-- C7 amended: escapeHtml entity-encodes the ampersand, less-than and
greater-than characters (the DOM text-node serialization; quotes pass
through unchanged), so no literal angle bracket survives in its
output; in particular escaping "<script>" yields a string with no
literal markup delimiters. -/
theorem escapeHtml_no_raw_markup :
    (∀ t : List Char, (escapeHtml t).all (fun c => !(c == '<') && !(c == '>')) = true) ∧
    escapeHtml "<script>".toList = "&lt;script&gt;".toList := by
  constructor
  · intro t
    cases t with
    | nil => rfl
    | cons c cs =>
        rw [List.all_eq_true]
        intro d hd
        have hd2 : d ∈ (c :: cs).flatMap escapeChar := by
          simpa [escapeHtml] using hd
        rw [List.mem_flatMap] at hd2
        obtain ⟨x, _, hx⟩ := hd2
        have hne := escapeChar_chars x d hx
        simp only [Bool.and_eq_true, Bool.not_eq_true', beq_eq_false_iff_ne, ne_eq]
        exact hne
  · decide

/-! ## The empty pattern -/

theorem patternSearch_nil_pattern : ∀ t : List Char, patternSearch [] t = true
  | [] => rfl
  | _ :: _ => by simp [patternSearch, matchesAt]

/-- C8 counterexample: the claim is false as stated — for the empty
query (whose normalization is empty) there is no non-empty text the
compiled pattern fails to match in, because the empty pattern matches
in every text. -/
theorem empty_pattern_matches_everything :
    ¬(∀ q : List Char, normalizeText q = [] →
        ∃ t : List Char, t ≠ [] ∧ patternSearch (buildAccentInsensitivePattern q) t = false) := by
  intro hclaim
  obtain ⟨t, htne, hfalse⟩ := hclaim [] rfl
  have htrue : patternSearch (buildAccentInsensitivePattern []) t = true := by
    have hp : buildAccentInsensitivePattern ([] : List Char) = [] := rfl
    rw [hp]
    exact patternSearch_nil_pattern t
  rw [htrue] at hfalse
  cases hfalse

/-- C8 amended: a query whose normalization is empty compiles to the
empty pattern, and that pattern matches in every text (the module
relies on search rejecting queries of trimmed length below 2 before
any pattern is built). -/
theorem buildPattern_empty_spec (q : List Char) (h : normalizeText q = []) :
    buildAccentInsensitivePattern q = [] ∧
    ∀ t : List Char, patternSearch (buildAccentInsensitivePattern q) t = true := by
  have hp : buildAccentInsensitivePattern q = [] := by
    unfold buildAccentInsensitivePattern; rw [h]; rfl
  exact ⟨hp, fun t => by rw [hp]; exact patternSearch_nil_pattern t⟩

/-- C8 witness: a lone combining acute accent normalizes to the empty
string; the resulting pattern matches in the non-empty text "x". -/
theorem buildPattern_empty_witness :
    patternSearch (buildAccentInsensitivePattern [Char.ofNat 0x301]) ['x'] = true :=
  (buildPattern_empty_spec [Char.ofNat 0x301] (by decide)).2 ['x']

/-! ## Highlighting inside escape entities -/

/-- C1: evaluating the code at the failing input fieldText "<",
query "lt": escaping produces the four-character entity string
sequence ampersand-l-t-semicolon, the pattern then matches the "lt"
inside that escape entity, and the highlight output splits the entity
around the marker — the entity no longer occurs in the output, so the
matched span boundaries do not align with visible-character
boundaries of the escaped string. -/
theorem highlightText_entity_break :
    escapeHtml ['<'] = ['&', 'l', 't', ';'] ∧
    highlightText ['<'] ['l', 't'] =
      ['&'] ++ markPre ++ ['l', 't'] ++ markPost ++ [';'] ∧
    containsSub ['&', 'l', 't', ';'] (highlightText ['<'] ['l', 't']) = false := by
  refine ⟨by decide, by decide, by decide⟩

/-! ## The search loop: truncation and inclusion -/

/-- The scan loop, below its limit, returns the accumulated matches
followed by the remaining matches of the scanned records, truncated
so that the total reaches exactly the limit. -/
theorem searchGo_eq (q : List Char) (limit : Int) :
    ∀ (recs : List Record) (acc : List MatchResult), (acc.length : Int) < limit →
      searchGo q limit recs acc =
        acc ++ (recs.filterMap (recordMatch q)).take (limit.toNat - acc.length) := by
  intro recs
  induction recs with
  | nil => intro acc h; simp [searchGo]
  | cons r rest ih =>
      intro acc h
      cases hm : recordMatch q r with
      | none =>
          simp only [searchGo, hm]
          rw [if_neg (by omega)]
          rw [ih acc h]
          simp [List.filterMap_cons, hm]
      | some m =>
          simp only [searchGo, hm]
          rw [List.filterMap_cons]
          simp only [hm]
          by_cases hc : ((acc ++ [m]).length : Int) ≥ limit
          · rw [if_pos hc]
            have hlen : limit.toNat - acc.length = 1 := by
              simp only [List.length_append, List.length_cons, List.length_nil] at hc
              omega
            rw [hlen]
            simp
          · rw [if_neg hc]
            have hlt : (((acc ++ [m]).length : Int)) < limit := by omega
            rw [ih (acc ++ [m]) hlt]
            have hlen : limit.toNat - acc.length = (limit.toNat - (acc ++ [m]).length) + 1 := by
              simp only [List.length_append, List.length_cons, List.length_nil] at hc ⊢
              omega
            rw [hlen]
            simp

/-- A valid query searches to the truncated full match list. -/
theorem search_eq_take (index : List Record) (q : List Char) (lim : Option Int)
    (hq : 2 ≤ (jsTrim q).length) (hpos : 1 ≤ effLimit lim) :
    search index (some q) lim =
      (fullMatches (jsTrim q) index).take (effLimit lim).toNat := by
  simp only [search]
  rw [if_neg (by omega)]
  rw [searchGo_eq (jsTrim q) (effLimit lim) index [] (by simpa using hpos)]
  simp [fullMatches]

/-- C3 counterexample: a caller-supplied limit of 0 is falsy, falls
back to the default 50, and the result then exceeds the supplied
limit: one result is returned where the claim allows at most 0. -/
theorem search_limit_zero_exceeds :
    (search [wRec] (some ['d', 'i']) (some 0)).length = 1 ∧
    ¬((search [wRec] (some ['d', 'i']) (some 0)).length ≤ 0) := by
  refine ⟨by decide, by decide⟩

/-- C3 amended: for every caller-supplied limit of at least 1 (an
absent limit, and also a supplied limit of 0 since it is falsy, fall
back to the default 50) and every valid query, search returns the
prefix of the full index-ordered match list of length at most the
limit — so it never exceeds the limit, preserves index order among
matches, ignores records past the point where the limit is reached,
and for limit 1 on an index with at least 2 matches returns exactly
the first matching record. -/
theorem search_limit_spec (index : List Record) (q : List Char) (limit : Int)
    (hq : 2 ≤ (jsTrim q).length) (hl : 1 ≤ limit) :
    search index (some q) (some limit) = (fullMatches (jsTrim q) index).take limit.toNat ∧
    (search index (some q) (some limit)).length ≤ limit.toNat ∧
    search index (some q) none = (fullMatches (jsTrim q) index).take 50 ∧
    search index (some q) (some 0) = (fullMatches (jsTrim q) index).take 50 ∧
    (∀ rest : List Record, limit.toNat ≤ (fullMatches (jsTrim q) index).length →
        search (index ++ rest) (some q) (some limit) = search index (some q) (some limit)) ∧
    (2 ≤ (fullMatches (jsTrim q) index).length →
        (search index (some q) (some 1)).length = 1 ∧
        search index (some q) (some 1) = (fullMatches (jsTrim q) index).take 1) := by
  have heff : effLimit (some limit) = limit := by
    simp only [effLimit]
    rw [if_neg (by omega : ¬limit = 0)]
  have hA : search index (some q) (some limit) = (fullMatches (jsTrim q) index).take limit.toNat := by
    rw [search_eq_take index q (some limit) hq (by rw [heff]; exact hl), heff]
  have hA1 : search index (some q) (some 1) = (fullMatches (jsTrim q) index).take 1 := by
    rw [search_eq_take index q (some 1) hq (by decide),
      (by decide : (effLimit (some 1)).toNat = 1)]
  refine ⟨hA, ?_, ?_, ?_, ?_, ?_⟩
  · rw [hA]
    simp [List.length_take]
  · rw [search_eq_take index q none hq (by decide),
      (by decide : (effLimit none).toNat = 50)]
  · rw [search_eq_take index q (some 0) hq (by decide),
      (by decide : (effLimit (some 0)).toNat = 50)]
  · intro rest hge
    have hA2 : search (index ++ rest) (some q) (some limit) =
        (fullMatches (jsTrim q) (index ++ rest)).take limit.toNat := by
      rw [search_eq_take (index ++ rest) q (some limit) hq (by rw [heff]; exact hl), heff]
    rw [hA2, hA]
    unfold fullMatches
    rw [List.filterMap_append]
    exact List.take_append_of_le_length hge
  · intro h2
    refine ⟨?_, hA1⟩
    rw [hA1]
    simp [List.length_take]
    omega

/-- C3 witness: on a one-record matching index with limit 1 the
search result is the one-element truncation of the full match list. -/
theorem search_limit_spec_witness :
    search [wRec] (some ['d', 'i']) (some 1) =
      (fullMatches (jsTrim ['d', 'i']) [wRec]).take (Int.toNat 1) :=
  (search_limit_spec [wRec] ['d', 'i'] 1 (by decide) (by decide)).1

/-! ## Which records a search includes -/

theorem filter_isEmpty_eq_not_any {α : Type} (p : α → Bool) (l : List α) :
    (l.filter p).isEmpty = !(l.any p) := by
  induction l with
  | nil => rfl
  | cons x xs ih => by_cases hx : p x = true <;> simp [List.filter_cons, hx, ih]

theorem memB_iff {r : Record} {l : List Record} : memB r l = true ↔ r ∈ l := by
  simp [memB, List.any_eq_true]

theorem mem_fullMatches {q : List Char} {index : List Record} {m : MatchResult} :
    m ∈ fullMatches q index ↔ ∃ r ∈ index, recordMatch q r = some m := by
  simp [fullMatches, List.mem_filterMap]

theorem recordMatch_some {q : List Char} {r : Record} {m : MatchResult}
    (h : recordMatch q r = some m) :
    m.item = r ∧
    m.matchedFields = [r.question, r.answer, r.verse, r.reference].filter
      (fun f => textContainsOpt f q) := by
  simp only [recordMatch] at h
  split at h
  · cases h
  · cases h
    exact ⟨rfl, rfl⟩

theorem recordMatch_isSome_iff {q : List Char} {r : Record} :
    recordMatch q r ≠ none ↔
      [r.question, r.answer, r.verse, r.reference].any (fun f => textContainsOpt f q) = true := by
  simp only [recordMatch]
  rw [filter_isEmpty_eq_not_any]
  cases hany : [r.question, r.answer, r.verse, r.reference].any (fun f => textContainsOpt f q) <;>
    simp

/-- C4 counterexample: on an index of 51 pairwise distinct records all
matching the query "di", a default-limit search returns 50 results;
the 51st record matches on its question field yet no returned result
carries it, so inclusion is not equivalent to having a matching
field. -/
theorem search_over_limit_excludes_match :
    (search c4Recs (some ['d', 'i']) none).length = 50 ∧
    memB c4rec50 c4Recs = true ∧
    [c4rec50.question, c4rec50.answer, c4rec50.verse, c4rec50.reference].any
      (fun f => textContainsOpt f (jsTrim ['d', 'i'])) = true ∧
    memB c4rec50 ((search c4Recs (some ['d', 'i']) none).map MatchResult.item) = false := by
  refine ⟨by decide, by decide, by decide, by decide⟩

/-- C4 amended: for every query of trimmed length at least 2, on any
index whose full match count does not exceed the default limit of 50,
a record appears among the returned items exactly when at least one
of its four searchable fields (question, answer, verse, reference;
absent fields treated as non-matching) contains the normalized query,
and every result carries its record together with the matching field
values in the fixed check order question, answer, verse, reference. -/
theorem search_inclusion_spec (index : List Record) (q : List Char)
    (hq : 2 ≤ (jsTrim q).length)
    (hcount : (fullMatches (jsTrim q) index).length ≤ 50) :
    (∀ r : Record,
      memB r ((search index (some q) none).map MatchResult.item) =
        (memB r index &&
          [r.question, r.answer, r.verse, r.reference].any
            (fun f => textContainsOpt f (jsTrim q)))) ∧
    (∀ m, m ∈ search index (some q) none →
      m.item ∈ index ∧
      m.matchedFields = [m.item.question, m.item.answer, m.item.verse, m.item.reference].filter
        (fun f => textContainsOpt f (jsTrim q))) := by
  have hs : search index (some q) none = fullMatches (jsTrim q) index := by
    rw [search_eq_take index q none hq (by decide),
      (by decide : (effLimit none).toNat = 50)]
    exact List.take_of_length_le hcount
  constructor
  · intro r
    rw [Bool.eq_iff_iff]
    rw [Bool.and_eq_true, memB_iff, memB_iff]
    constructor
    · intro hmem
      rw [List.mem_map] at hmem
      obtain ⟨m, hm, hitem⟩ := hmem
      rw [hs, mem_fullMatches] at hm
      obtain ⟨r2, hr2, hrm⟩ := hm
      have hsome := recordMatch_some hrm
      have hr : r2 = r := by rw [← hitem, hsome.1]
      subst hr
      refine ⟨hr2, ?_⟩
      rw [← recordMatch_isSome_iff]
      rw [hrm]
      simp
    · rintro ⟨hr, hany⟩
      have hne : recordMatch (jsTrim q) r ≠ none := recordMatch_isSome_iff.mpr hany
      obtain ⟨m, hm⟩ := Option.ne_none_iff_exists.mp hne
      rw [List.mem_map]
      refine ⟨m, ?_, (recordMatch_some hm.symm).1⟩
      rw [hs, mem_fullMatches]
      exact ⟨r, hr, hm.symm⟩
  · intro m hm
    rw [hs, mem_fullMatches] at hm
    obtain ⟨r, hr, hrm⟩ := hm
    have hsome := recordMatch_some hrm
    constructor
    · rw [hsome.1]; exact hr
    · rw [hsome.2, hsome.1]

/-- C4 witness: the specification's worked example — the one-record
dios index; the record is included exactly because a field matches,
and the single result carries both the question and the answer text
as matched fields. -/
theorem search_inclusion_witness :
    memB diosRec ((search diosIndex (some diosQuery) none).map MatchResult.item) =
      (memB diosRec diosIndex &&
        [diosRec.question, diosRec.answer, diosRec.verse, diosRec.reference].any
          (fun f => textContainsOpt f (jsTrim diosQuery))) ∧
    search diosIndex (some diosQuery) none =
      [{ item := diosRec, matchedFields := [diosRec.question, diosRec.answer] }] :=
  ⟨(search_inclusion_spec diosIndex diosQuery (by decide) (by decide)).1 diosRec, by decide⟩

/-! ## Containment test versus compiled pattern -/

theorem contains_iff_mem {cls : List Char} {x : Char} : cls.contains x = true ↔ x ∈ cls :=
  List.elem_iff

theorem am_class_lower_fixed : ∀ p ∈ ACCENT_MAP, ∀ x ∈ p.2, lowerChar x = x := by decide

theorem am_class_members :
    ∀ p ∈ ACCENT_MAP, ∀ x ∈ p.2,
      x = p.1 ∨ variantBase.any (fun pr => pr.1 == x) = true := by decide

theorem am_key_in_class : ∀ p ∈ ACCENT_MAP, p.1 ∈ p.2 := by decide

theorem variant_in_class_iff :
    ∀ pr ∈ variantBase, ∀ p ∈ ACCENT_MAP, (pr.1 ∈ p.2 ↔ pr.2 = p.1) := by decide

theorem variant_base_in_keys :
    ∀ pr ∈ variantBase, ACCENT_MAP.any (fun am => am.1 == pr.2) = true := by decide

theorem variant_nfd_filtered :
    ∀ pr ∈ variantBase, (nfdChar pr.1).filter (fun c => !combining c) = [pr.2] := by decide

theorem goodChar_elim {c : Char} (h : goodChar c = true) :
    (∃ pr ∈ variantBase, pr.1 = lowerChar c) ∨
    (nfdChar (lowerChar c) = [lowerChar c] ∧ combining (lowerChar c) = false) := by
  simp only [goodChar, Bool.or_eq_true, List.any_eq_true, Bool.and_eq_true, beq_iff_eq,
    Bool.not_eq_true'] at h
  exact h

/-- A good character is either an accented variant (normalizing to its
base) or a plain character fixed by the pipeline. -/
theorem charBase_spec {c : Char} (h : goodChar c = true) :
    (∃ pr ∈ variantBase, pr.1 = lowerChar c ∧ charBase c = pr.2) ∨
    (charBase c = lowerChar c ∧ nfdChar (lowerChar c) = [lowerChar c] ∧
     combining (lowerChar c) = false ∧
     variantBase.find? (fun pr => pr.1 == lowerChar c) = none) := by
  cases hf : variantBase.find? (fun pr => pr.1 == lowerChar c) with
  | some pr0 =>
      left
      refine ⟨pr0, List.mem_of_find?_eq_some hf, ?_, ?_⟩
      · have h2 := List.find?_some hf
        rwa [beq_iff_eq] at h2
      · unfold charBase; rw [hf]
  | none =>
      right
      have hcb : charBase c = lowerChar c := by unfold charBase; rw [hf]
      rcases goodChar_elim h with ⟨pr, hpr, hpeq⟩ | ⟨h1, h2⟩
      · exfalso
        have h3 := List.find?_eq_none.mp hf pr hpr
        rw [beq_iff_eq] at h3
        exact h3 hpeq
      · exact ⟨hcb, h1, h2, rfl⟩

/-- On good characters the normalizer acts pointwise, replacing each
character by its base. -/
theorem normalize_good :
    ∀ t : List Char, (∀ c ∈ t, goodChar c = true) → normalizeText t = t.map charBase := by
  intro t
  induction t with
  | nil => intro _; rfl
  | cons c cs ih =>
      intro h
      have hc := h c (by simp)
      have hcs := ih (fun d hd => h d (by simp [hd]))
      rw [normalizeText_pipeline] at hcs ⊢
      simp only [List.map_cons, List.flatMap_cons, List.filter_append]
      rw [hcs]
      rcases charBase_spec hc with ⟨pr, hpr, hpeq, hcb⟩ | ⟨hcb, h1, h2, _⟩
      · rw [hcb, ← hpeq, variant_nfd_filtered pr hpr]
        simp
      · rw [hcb, h1]
        simp [List.filter_cons, h2]

/-- On a good text character and a pipeline-fixed query character, one
pattern atom tests exactly base-letter equality. -/
theorem classMatches_good {d p : Char} (hd : goodChar d = true) (hp : plainChar p = true) :
    classMatches (classOf p) d = (charBase d == p) := by
  have hpe := plainChar_elim hp
  rw [Bool.eq_iff_iff, beq_iff_eq]
  cases hf : ACCENT_MAP.find? (fun pr => pr.1 == p) with
  | some am =>
      have ham : am ∈ ACCENT_MAP := List.mem_of_find?_eq_some hf
      have hamp : am.1 = p := by
        have h2 := List.find?_some hf
        rwa [beq_iff_eq] at h2
      have hcls : classOf p = am.2 := by unfold classOf; rw [hf]
      rw [hcls]
      have hstep : classMatches am.2 d = true ↔ lowerChar d ∈ am.2 := by
        unfold classMatches
        rw [Bool.or_eq_true, contains_iff_mem, contains_iff_mem]
        constructor
        · rintro (hmem | hmem)
          · rw [am_class_lower_fixed am ham d hmem]; exact hmem
          · exact hmem
        · intro hmem; exact Or.inr hmem
      rw [hstep]
      rcases charBase_spec hd with ⟨pr, hpr, hpeq, hcb⟩ | ⟨hcb, h1, h2, hfnone⟩
      · rw [← hpeq, hcb, variant_in_class_iff pr hpr am ham, hamp]
      · constructor
        · intro hmem
          rcases am_class_members am ham _ hmem with heq | hvar
          · rw [hcb, heq, hamp]
          · exfalso
            rw [List.any_eq_true] at hvar
            obtain ⟨pr, hpr, hpeq2⟩ := hvar
            rw [beq_iff_eq] at hpeq2
            have h3 := List.find?_eq_none.mp hfnone pr hpr
            rw [beq_iff_eq] at h3
            exact h3 hpeq2
        · intro heq
          rw [hcb] at heq
          rw [heq, ← hamp]
          exact am_key_in_class am ham
  | none =>
      have hcls : classOf p = [p] := by unfold classOf; rw [hf]
      rw [hcls]
      unfold classMatches
      rw [Bool.or_eq_true, contains_iff_mem, contains_iff_mem, List.mem_singleton,
        List.mem_singleton]
      rcases charBase_spec hd with ⟨pr, hpr, hpeq, hcb⟩ | ⟨hcb, h1, h2, hfnone⟩
      · have hkey := variant_base_in_keys pr hpr
        rw [List.any_eq_true] at hkey
        obtain ⟨am, ham, hameq⟩ := hkey
        rw [beq_iff_eq] at hameq
        have hnp1 : ¬(pr.2 = p) := by
          intro he
          have h3 := List.find?_eq_none.mp hf am ham
          rw [beq_iff_eq] at h3
          exact h3 (by rw [hameq, he])
        have hnp2 : ¬(lowerChar d = p) := by
          intro he
          have htrue : variantBase.any (fun x => x.1 == p) = true :=
            List.any_eq_true.mpr ⟨pr, hpr, by rw [beq_iff_eq]; exact hpeq.trans he⟩
          rw [hpe.2.2.2] at htrue
          cases htrue
        have hnp3 : ¬(d = p) := fun he => hnp2 (by rw [he, hpe.1])
        rw [hcb]
        constructor
        · rintro (he | he)
          · exact absurd he hnp3
          · exact absurd he hnp2
        · intro he
          exact absurd he hnp1
      · rw [hcb]
        constructor
        · rintro (he | he)
          · rw [he, hpe.1]
          · exact he
        · intro he
          exact Or.inr he

/-- Matching the compiled pattern at the head of a good text is
testing the normalized query against the head of the base-mapped
text. -/
theorem matchesAt_good :
    ∀ (nq s : List Char), (∀ c ∈ s, goodChar c = true) → (∀ p ∈ nq, plainChar p = true) →
      matchesAt (nq.map classOf) s = listStartsWith (s.map charBase) nq := by
  intro nq
  induction nq with
  | nil => intro s _ _; cases s <;> rfl
  | cons p ps ih =>
      intro s hs hp
      cases s with
      | nil => rfl
      | cons d ds =>
          simp only [List.map_cons, matchesAt, listStartsWith]
          rw [classMatches_good (hs d (by simp)) (hp p (by simp))]
          rw [ih ds (fun c hc => hs c (by simp [hc])) (fun x hx => hp x (by simp [hx]))]

/-- Searching a good text with the compiled pattern is the substring
search of the normalized query in the base-mapped text. -/
theorem patternSearch_good :
    ∀ (t nq : List Char), (∀ c ∈ t, goodChar c = true) → (∀ p ∈ nq, plainChar p = true) →
      patternSearch (nq.map classOf) t = containsSub nq (t.map charBase) := by
  intro t
  induction t with
  | nil =>
      intro nq _ _
      cases nq <;> rfl
  | cons d ds ih =>
      intro nq hs hp
      simp only [List.map_cons, patternSearch, containsSub]
      rw [← List.map_cons charBase d ds, matchesAt_good nq (d :: ds) hs hp]
      rw [ih nq (fun c hc => hs c (by simp [hc])) hp]

/-- C2 counterexample: ã (a with tilde) is folded to a by
normalization, so the containment test accepts it, but ã is not in
the fixed character class for a, so the compiled pattern does not
match it: the two matchers are not equivalent. -/
theorem textContains_pattern_disagree_tilde_a :
    textContains ['ã'] ['a'] = true ∧
    patternSearch (buildAccentInsensitivePattern ['a']) ['ã'] = false :=
  ⟨by decide, by decide⟩

/-- C2 amended: the containment test and the compiled pattern agree on
every text whose characters are good — each one lowercases to either a
mapped accented variant or a plain, non-decomposable, non-combining
character — and every query with non-empty normalization; on texts
with characters outside that set (a decomposable letter not in the
accent map such as ã, or a decomposed base-plus-mark pair) the
containment test is strictly broader than the pattern. -/
theorem textContains_eq_patternSearch_of_good (t q : List Char)
    (ht : ∀ c ∈ t, goodChar c = true) (hq : normalizeText q ≠ []) :
    textContains t q = patternSearch (buildAccentInsensitivePattern q) t := by
  have hqne : q ≠ [] := by
    intro h
    subst h
    exact hq rfl
  cases t with
  | nil =>
      cases hnq : normalizeText q with
      | nil => exact absurd hnq hq
      | cons p ps =>
          unfold textContains buildAccentInsensitivePattern
          rw [hnq]
          rfl
  | cons c cs =>
      unfold buildAccentInsensitivePattern
      rw [patternSearch_good (c :: cs) (normalizeText q) ht (n_chars_plain q)]
      rw [← normalize_good (c :: cs) ht]
      have hqf : q.isEmpty = false := by
        cases q with
        | nil => exact absurd rfl hqne
        | cons x xs => rfl
      simp [textContains, hqf]

/-- C2 witness: the agreement evaluated at the accented text Ñ and
the query n. -/
theorem textContains_eq_patternSearch_witness :
    textContains ['Ñ'] ['n'] = patternSearch (buildAccentInsensitivePattern ['n']) ['Ñ'] :=
  textContains_eq_patternSearch_of_good ['Ñ'] ['n'] (by decide) (by decide)

end UnifiedSearch
